import Mathlib

/-!
# TPA2016 amplifier driver (`amp.go`)

A shallow embedding of the register driver in `amp.go`.

* A Go `byte` is a `Nat` below 256; conversions that truncate in Go carry an
  explicit `% 256`.  A Go `int` is an `Int` (no arithmetic of the driver can
  overflow: every value is range-checked or clamped before it is used).
* The `*i2c.I2C` handle is an external collaborator.  It is a method table
  `I2C σ` over an arbitrary device state `σ`; the driver threads the state.
  The byte counts returned by `Write` and `Read` are discarded by every caller
  in `amp.go`, so the methods of the table return only the error.
* `Amp.buf` is the `[8]byte` scratch array, a function on `Fin 8`.
-/

namespace Tpa2016

/-! ## Errors -/

/-- A Go `error` value: one made by `errors.New`, or one coming from the bus. -/
inductive Error where
  | errorsNew (msg : String)
  | bus (code : Nat)
  deriving DecidableEq, Repr

/-! ## Constants of `amp.go` -/

/-- The Go type `AGCRatio`, a `byte`. -/
abbrev AGCRatio := Nat

def AGCOff : AGCRatio := 0
def AGC2 : AGCRatio := 1
def AGC4 : AGCRatio := 2
def AGC8 : AGCRatio := 3

def setup : Nat := 0x1
def setupREnabled : Nat := 0x80
def setupLEnabled : Nat := 0x40
def setupSWS : Nat := 0x20
def setupRFault : Nat := 0x10
def setupLFault : Nat := 0x08
def setupThermal : Nat := 0x04
def setupNoiseGate : Nat := 0x01

def regAtk : Nat := 0x2
def regRel : Nat := 0x3
def regHold : Nat := 0x4
def regGain : Nat := 0x5
def regAGCLimit : Nat := 0x6
def regAGC : Nat := 0x7
def regAGCOff : Nat := 0x00
def regAGC2 : Nat := 0x01
def regAGC4 : Nat := 0x02
def regAGC8 : Nat := 0x03

def i2cAddr : Nat := 0x58

/-! ## Byte arithmetic -/

/-- Go conversion `byte(g)` of an `int`: the value modulo 256. -/
def toByte (g : Int) : Nat := (g % 256).toNat

/-- Go bit clear `b &^ m` on bytes. -/
def andNot (b m : Nat) : Nat := b &&& (255 ^^^ m)

/-- Go shift `b << k` on a byte: the bits shifted past bit 7 are dropped. -/
def shlByte (b k : Nat) : Nat := (b <<< k) % 256

/-! ## The bus handle -/

/-- The methods of `*i2c.I2C` that the driver calls, over a device state `σ`.
`Write s p` sends the bytes `p`.  `Read s p` is called with the current
contents `p` of the destination slice and returns the bytes the transport
stored at the front of that slice (possibly fewer than `p.length`; on the
driver's bus none when it reports an error, see `ReadAllOrNothing`). -/
structure I2C (σ : Type) where
  Write : σ → List Nat → σ × Option Error
  Read : σ → List Nat → σ × List Nat × Option Error

/-- One call on the bus handle. -/
inductive BusOp where
  | write (bytes : List Nat)
  | read (len : Nat)
  deriving DecidableEq, Repr

/-- A transport that also records every call made on it, in order. -/
def traced {σ : Type} (T : I2C σ) : I2C (σ × List BusOp) where
  Write := fun s p =>
    (((T.Write s.1 p).1, s.2 ++ [BusOp.write p]), (T.Write s.1 p).2)
  Read := fun s p =>
    (((T.Read s.1 p).1, s.2 ++ [BusOp.read p.length]), (T.Read s.1 p).2)

/-! ## The driver -/

/-- The `Amp` struct: the bus handle's state and the scratch array. -/
structure Amp (σ : Type) where
  i2c : σ
  buf : Fin 8 → Nat

/-- Assignment `buf[i] = v`. -/
def setBuf (buf : Fin 8 → Nat) (i : Fin 8) (v : Nat) : Fin 8 → Nat :=
  fun j => if j = i then v else buf j

/-- The slice `buf[:n]` as a list of bytes. -/
def slice (buf : Fin 8 → Nat) (n : Nat) : List Nat :=
  (List.finRange 8).filterMap (fun j => if j.val < n then some (buf j) else none)

/-- The array after a `Read` into `buf[:n]` stored the bytes `d` at its front. -/
def storeInto (buf : Fin 8 → Nat) (n : Nat) (d : List Nat) : Fin 8 → Nat :=
  fun j => if j.val < n then d.getD j.val (buf j) else buf j

/-- Embedding of `(*Amp).readByte`. -/
def readByte {σ : Type} (T : I2C σ) (a : Amp σ) (register : Nat) :
    Amp σ × Nat × Option Error :=
  let buf := setBuf a.buf 0 register
  let w := T.Write a.i2c (slice buf 1)
  match w.2 with
  | some err => (⟨w.1, buf⟩, 0, some err)
  | none =>
    let r := T.Read w.1 (slice buf 1)
    let buf2 := storeInto buf 1 r.2.1
    (⟨r.1, buf2⟩, buf2 0, r.2.2)

/-- Embedding of `(*Amp).writeByte`. -/
def writeByte {σ : Type} (T : I2C σ) (a : Amp σ) (register value : Nat) :
    Amp σ × Option Error :=
  let buf := setBuf (setBuf a.buf 0 register) 1 value
  let w := T.Write a.i2c (slice buf 2)
  (⟨w.1, buf⟩, w.2)

/-- Embedding of `(*Amp).Gain`. -/
def Gain {σ : Type} (T : I2C σ) (a : Amp σ) : Amp σ × Int × Option Error :=
  let r := readByte T a regGain
  (r.1, Int.ofNat r.2.1, r.2.2)

/-- Embedding of `(*Amp).SetGain`. -/
def SetGain {σ : Type} (T : I2C σ) (a : Amp σ) (g : Int) : Amp σ × Option Error :=
  let g := if g > 30 then 30 else if g < -28 then -28 else g
  writeByte T a regGain (toByte g &&& 0x3f)

/-- Embedding of `(*Amp).EnableChannel`. -/
def EnableChannel {σ : Type} (T : I2C σ) (a : Amp σ) (right left : Bool) :
    Amp σ × Option Error :=
  let r := readByte T a setup
  match r.2.2 with
  | some err => (r.1, some err)
  | none =>
    let sb := r.2.1
    let sb := if right then sb ||| setupREnabled else andNot sb setupREnabled
    let sb := if left then sb ||| setupLEnabled else andNot sb setupLEnabled
    writeByte T r.1 setup sb

/-- Embedding of `(*Amp).Faults`: results are `(left, right, thermal, err)`. -/
def Faults {σ : Type} (T : I2C σ) (a : Amp σ) :
    Amp σ × Bool × Bool × Bool × Option Error :=
  let r := readByte T a setup
  let sb := r.2.1
  (r.1, sb &&& setupLFault != 0, sb &&& setupRFault != 0, sb &&& setupThermal != 0, r.2.2)

/-- Embedding of `(*Amp).SetAGCCompression`; `ratio` is the `AGCRatio` byte. -/
def SetAGCCompression {σ : Type} (T : I2C σ) (a : Amp σ) (ratio : AGCRatio) :
    Amp σ × Option Error :=
  if ratio > 3 then
    (a, some (Error.errorsNew ("tpa2016: agc ratio out of range")))
  else
    let r := readByte T a regAGC
    match r.2.2 with
    | some err => (r.1, some err)
    | none =>
      let b := andNot r.2.1 3 ||| ratio
      writeByte T r.1 regAGC b

/-- Embedding of `(*Amp).SetAGCMaxGain`. -/
def SetAGCMaxGain {σ : Type} (T : I2C σ) (a : Amp σ) (g : Int) : Amp σ × Option Error :=
  if g < 18 ∨ g > 30 then
    (a, some (Error.errorsNew ("tpa2016: agc max gain must be in the range [18, 30]")))
  else
    let r := readByte T a regAGC
    match r.2.2 with
    | some err => (r.1, some err)
    | none =>
      let b := andNot r.2.1 0xf0 ||| shlByte (toByte (g - 18)) 4
      writeByte T r.1 regAGC b

/-! ## Concrete transports -/

/-- State of a simulated chip: its register file and its register pointer. -/
structure Chip where
  regs : Nat → Nat
  ptr : Nat

/-- A bus that never fails, in front of a chip whose register file stores what
is written and returns it on read: a one-byte write selects a register,
a longer write also stores its second byte there, a read returns the selected
register. -/
def chipBus : I2C Chip where
  Write := fun c p =>
    match p with
    | [] => (c, none)
    | [r] => (⟨c.regs, r⟩, none)
    | r :: v :: _ => (⟨fun k => if k = r then v else c.regs k, r⟩, none)
  Read := fun c _ => (c, [c.regs c.ptr], none)

/-- A bus whose writes succeed and whose every read reports error `e` after
storing the bytes `d` in the destination (nothing, for `d = []`). -/
def failingReadBus (d : List Nat) (e : Error) : I2C Unit where
  Write := fun _ _ => ((), none)
  Read := fun _ _ => ((), d, some e)

/-- A bus whose every write reports error `e`. -/
def failingWriteBus (e : Error) : I2C Unit where
  Write := fun _ _ => ((), some e)
  Read := fun _ _ => ((), [], none)

/-- An amplifier handle as `New` leaves it: zeroed scratch array. -/
def newAmp {σ : Type} (s : σ) : Amp σ := ⟨s, fun _ => 0⟩

/-- A chip with every register holding `v`. -/
def chipWith (v : Nat) : Chip := ⟨fun _ => v, 0⟩

/-! ## The spec's vocabulary -/

/-- The saturating clamp of the spec: `clamp g lo hi`. -/
def clamp (g lo hi : Int) : Int := max lo (min g hi)

/-- The setup byte the spec describes for `EnableChannels`: `s` with bit 7 set to
`right`, bit 6 set to `left` and bits 0-5 unchanged. -/
def withChannels (s : Nat) (right left : Bool) : Nat :=
  s % 64 + (if left then 64 else 0) + (if right then 128 else 0)

/-- The bus contract for reads, bytes or an error: a read that reports an error
has stored nothing in the destination.  The `*i2c.I2C` handle of the driver,
made only by `New`, keeps it. -/
def ReadAllOrNothing {σ : Type} (T : I2C σ) : Prop :=
  ∀ s p e, (T.Read s p).2.2 = some e → (T.Read s p).2.1 = []

/-- Sign extension of the low six bits of a byte: the value of a 6-bit
two's-complement field. -/
def signExtend6 (v : Nat) : Int :=
  if 32 ≤ v % 64 then (v % 64 : Int) - 64 else (v % 64 : Int)

/-- A bus transfer of the sizes the driver stages: a write of one or two bytes,
or a read of one byte. -/
def BusOp.staged : BusOp → Bool
  | BusOp.write p => p.length == 1 || p.length == 2
  | BusOp.read n => n == 1

/-- The register-file chip behind a bus whose writes reach the chip and whose
every read reports error `e` and stores nothing. -/
def deafChipBus (e : Error) : I2C Chip where
  Write := chipBus.Write
  Read := fun c _ => (c, [], some e)

/-- What one call of the driver may do to the handle, from `a` to `a2`: the log
of bus calls grows by transfers of staged size only, and the scratch array is
touched at positions 0 and 1 only. -/
def Staged {σ : Type} (a a2 : Amp (σ × List BusOp)) : Prop :=
  (∃ ops : List BusOp, a2.i2c.2 = a.i2c.2 ++ ops ∧ ∀ op ∈ ops, op.staged = true)
    ∧ ∀ j : Fin 8, 2 ≤ j.val → a2.buf j = a.buf j

/-- The contract of a read-modify-write accessor on register `reg`, for its
result `res` on the traced transport from device state `s` and log `log`:
a failed address write or a failed read ends the call with that error, no
two-byte write in the log and the observed register contents `regs` unchanged;
an answered read is followed by exactly one two-byte write to `reg`, whose
result is the result of the call. -/
def RmwContract {σ ρ : Type} (T : I2C σ) (regs : σ → ρ) (s : σ) (log : List BusOp)
    (reg : Nat) (res : Amp (σ × List BusOp) × Option Error) : Prop :=
  (∀ s1 e, T.Write s [reg] = (s1, some e) →
      res.2 = some e ∧ res.1.i2c = (s1, log ++ [BusOp.write [reg]])
        ∧ regs res.1.i2c.1 = regs s)
  ∧ (∀ s1 s2 d e, T.Write s [reg] = (s1, none) → T.Read s1 [reg] = (s2, d, some e) →
      res.2 = some e ∧ res.1.i2c = (s2, log ++ [BusOp.write [reg], BusOp.read 1])
        ∧ regs res.1.i2c.1 = regs s)
  ∧ (∀ s1 s2 d, T.Write s [reg] = (s1, none) → T.Read s1 [reg] = (s2, d, none) →
      ∃ v, res.1.i2c = ((T.Write s2 [reg, v]).1,
              log ++ [BusOp.write [reg], BusOp.read 1, BusOp.write [reg, v]])
        ∧ res.2 = (T.Write s2 [reg, v]).2)

/-! ## Basic facts about the scratch array -/

theorem slice_one (buf : Fin 8 → Nat) : slice buf 1 = [buf 0] := rfl

theorem slice_two (buf : Fin 8 → Nat) : slice buf 2 = [buf 0, buf 1] := rfl

theorem setBuf_same (buf : Fin 8 → Nat) (i : Fin 8) (v : Nat) : setBuf buf i v i = v := by
  simp [setBuf]

theorem storeInto_one_cons (buf : Fin 8 → Nat) (b : Nat) (rest : List Nat) :
    storeInto buf 1 (b :: rest) = setBuf buf 0 b := by
  funext j
  by_cases h : j = 0
  · subst h; simp [storeInto, setBuf]
  · have h2 : ¬ (j.val < 1) := by
      intro h3
      exact h (Fin.ext (by simpa using h3))
    simp [storeInto, setBuf, h, h2]

theorem storeInto_nil (buf : Fin 8 → Nat) (n : Nat) : storeInto buf n [] = buf := by
  funext j
  simp [storeInto]

/-! ## The traced transport -/

theorem traced_Write {σ : Type} (T : I2C σ) (s : σ) (log : List BusOp) (p : List Nat) :
    (traced T).Write (s, log) p = (((T.Write s p).1, log ++ [BusOp.write p]), (T.Write s p).2) :=
  rfl

theorem traced_Read {σ : Type} (T : I2C σ) (s : σ) (log : List BusOp) (p : List Nat) :
    (traced T).Read (s, log) p
      = (((T.Read s p).1, log ++ [BusOp.read p.length]), (T.Read s p).2) :=
  rfl

/-! ## The two register primitives -/

theorem writeByte_eq {σ : Type} (T : I2C σ) (a : Amp σ) (register value : Nat) :
    writeByte T a register value
      = (⟨(T.Write a.i2c [register, value]).1, setBuf (setBuf a.buf 0 register) 1 value⟩,
          (T.Write a.i2c [register, value]).2) := by
  simp [writeByte, slice_two, setBuf]

theorem readByte_write_failed {σ : Type} (T : I2C σ) (a : Amp σ) (register : Nat)
    (s1 : σ) (e : Error) (hw : T.Write a.i2c [register] = (s1, some e)) :
    readByte T a register = (⟨s1, setBuf a.buf 0 register⟩, 0, some e) := by
  simp [readByte, slice_one, setBuf_same, hw]

theorem readByte_read_done {σ : Type} (T : I2C σ) (a : Amp σ) (register : Nat)
    (s1 s2 : σ) (d : List Nat) (r : Option Error)
    (hw : T.Write a.i2c [register] = (s1, none))
    (hr : T.Read s1 [register] = (s2, d, r)) :
    readByte T a register
      = (⟨s2, storeInto (setBuf a.buf 0 register) 1 d⟩,
          storeInto (setBuf a.buf 0 register) 1 d 0, r) := by
  simp [readByte, slice_one, setBuf_same, hw, hr]

theorem readByte_delivered {σ : Type} (T : I2C σ) (a : Amp σ) (register : Nat)
    (s1 s2 : σ) (b : Nat) (rest : List Nat) (r : Option Error)
    (hw : T.Write a.i2c [register] = (s1, none))
    (hr : T.Read s1 [register] = (s2, b :: rest, r)) :
    readByte T a register = (⟨s2, setBuf (setBuf a.buf 0 register) 0 b⟩, b, r) := by
  rw [readByte_read_done T a register s1 s2 (b :: rest) r hw hr, storeInto_one_cons, setBuf_same]

/-- On the traced transport, a register read whose two phases are answered:
the log grows by the address write and the one-byte read. -/
theorem readByte_traced {σ : Type} (T : I2C σ) (s : σ) (log : List BusOp) (buf : Fin 8 → Nat)
    (register : Nat) (s1 s2 : σ) (b : Nat) (rest : List Nat) (r : Option Error)
    (hw : T.Write s [register] = (s1, none))
    (hr : T.Read s1 [register] = (s2, b :: rest, r)) :
    readByte (traced T) ⟨(s, log), buf⟩ register
      = (⟨(s2, log ++ [BusOp.write [register], BusOp.read 1]),
            setBuf (setBuf buf 0 register) 0 b⟩, b, r) := by
  have hw2 : (traced T).Write (s, log) [register]
      = ((s1, log ++ [BusOp.write [register]]), none) := by
    rw [traced_Write, hw]
  have hr2 : (traced T).Read (s1, log ++ [BusOp.write [register]]) [register]
      = ((s2, log ++ [BusOp.write [register], BusOp.read 1]), b :: rest, r) := by
    rw [traced_Read, hr]
    simp
  exact readByte_delivered (traced T) ⟨(s, log), buf⟩ register _ _ b rest r hw2 hr2

/-! ## Bit-level facts on bytes -/

theorem goClamp_eq (g : Int) :
    (if g > 30 then 30 else if g < -28 then -28 else g) = clamp g (-28) 30 := by
  unfold clamp
  split
  · omega
  · split <;> omega

set_option maxRecDepth 1000000 in
theorem ratio_bits : ∀ b, b < 256 → ∀ r, r < 4 →
    (andNot b 3 ||| r) = ((b &&& 0xFC) ||| r) ∧ ((b &&& 0xFC) ||| r) < 256
      ∧ ((b &&& 0xFC) ||| r) / 4 = b / 4 ∧ ((b &&& 0xFC) ||| r) % 4 = r := by
  decide

set_option maxRecDepth 1000000 in
theorem maxGain_bits : ∀ b, b < 256 → ∀ k, k < 13 →
    (andNot b 0xf0 ||| shlByte k 4) = ((b &&& 0x0F) ||| (k <<< 4))
      ∧ ((b &&& 0x0F) ||| (k <<< 4)) < 256
      ∧ ((b &&& 0x0F) ||| (k <<< 4)) % 16 = b % 16
      ∧ ((b &&& 0x0F) ||| (k <<< 4)) / 16 = k := by
  decide

theorem toByte_maxGain (g : Int) (h1 : 18 ≤ g) (h2 : g ≤ 30) :
    toByte (g - 18) = (g - 18).toNat ∧ (g - 18).toNat < 13 := by
  unfold toByte
  omega

theorem toByte_low6 (g : Int) : toByte g &&& 0x3f = (g % 64).toNat := by
  have h := Nat.and_pow_two_sub_one_eq_mod (toByte g) 6
  have h2 : (2 : Nat) ^ 6 - 1 = 0x3f := by norm_num
  rw [h2] at h
  rw [h]
  unfold toByte
  omega

/-! ## Gain -/

/-- C1: for every integer `g`, `SetGain g` is exactly one call on the bus handle,
the two-byte write `[0x05, byte(clamp(g, -28, 30)) & 0x3f]`; it makes no read and
returns exactly what that write returns (on any transport, traced or not), so the
argument's range never makes it fail; `SetGain 45` writes `[0x05, 0x1E]`. -/
theorem SetGain_single_write {σ : Type} (T : I2C σ) (s : σ) (log : List BusOp)
    (buf : Fin 8 → Nat) (g : Int) :
    (SetGain (traced T) ⟨(s, log), buf⟩ g).1.i2c.2
        = log ++ [BusOp.write [0x05, toByte (clamp g (-28) 30) &&& 0x3f]]
    ∧ (SetGain (traced T) ⟨(s, log), buf⟩ g).1.i2c.1
        = (T.Write s [0x05, toByte (clamp g (-28) 30) &&& 0x3f]).1
    ∧ (SetGain (traced T) ⟨(s, log), buf⟩ g).2
        = (T.Write s [0x05, toByte (clamp g (-28) 30) &&& 0x3f]).2
    ∧ (SetGain T ⟨s, buf⟩ g).2
        = (T.Write s [0x05, toByte (clamp g (-28) 30) &&& 0x3f]).2
    ∧ (SetGain (traced T) ⟨(s, log), buf⟩ 45).1.i2c.2 = log ++ [BusOp.write [0x05, 0x1E]] := by
  refine ⟨?_, ?_, ?_, ?_, ?_⟩
  · simp only [SetGain, writeByte_eq, goClamp_eq, traced_Write, regGain]
  · simp only [SetGain, writeByte_eq, goClamp_eq, traced_Write, regGain]
  · simp only [SetGain, writeByte_eq, goClamp_eq, traced_Write, regGain]
  · simp only [SetGain, writeByte_eq, goClamp_eq, regGain]
  · simp only [SetGain, writeByte_eq, goClamp_eq, traced_Write, regGain]
    rfl

/-- C2 (evaluation of the code): on the register-file bus, `Gain` after
`SetGain g` returns the written byte `byte(clamp g) & 0x3f` as it is, with no
error.  For `0 ≤ g ≤ 30` this is `g`; for `-28 ≤ g < 0` it is `g + 64`, so
`SetGain (-1)` followed by `Gain` returns `63`, not `-1`. -/
theorem Gain_after_SetGain_raw (c : Chip) (buf : Fin 8 → Nat) (g : Int) :
    (Gain chipBus (SetGain chipBus ⟨c, buf⟩ g).1).2
        = (Int.ofNat (toByte (clamp g (-28) 30) &&& 0x3f), none)
    ∧ (0 ≤ g ∧ g ≤ 30 → (Gain chipBus (SetGain chipBus ⟨c, buf⟩ g).1).2 = (g, none))
    ∧ (-28 ≤ g ∧ g < 0 → (Gain chipBus (SetGain chipBus ⟨c, buf⟩ g).1).2 = (g + 64, none))
    ∧ (Gain chipBus (SetGain chipBus ⟨c, buf⟩ (-1)).1).2 = (63, none) := by
  have key : ∀ g : Int, (Gain chipBus (SetGain chipBus ⟨c, buf⟩ g).1).2
      = (Int.ofNat (toByte (clamp g (-28) 30) &&& 0x3f), none) := by
    intro g
    simp only [SetGain, writeByte_eq, goClamp_eq, Gain]
    rw [readByte_delivered chipBus _ regGain _ _ _ [] none rfl rfl]
    simp [regGain, chipBus]
  refine ⟨key g, ?_, ?_, ?_⟩
  · intro h
    rw [key g, toByte_low6]
    have hc : clamp g (-28) 30 = g := by unfold clamp; omega
    rw [hc]
    have : ((g % 64).toNat : Int) = g := by omega
    simp [this]
  · intro h
    rw [key g, toByte_low6]
    have hc : clamp g (-28) 30 = g := by unfold clamp; omega
    rw [hc]
    have : ((g % 64).toNat : Int) = g + 64 := by omega
    simp [this]
  · rw [key (-1)]
    rfl

/-! ## AGC compression ratio -/

/-- C3: for every ratio `r` in 0..3 and every byte `b` that the read of register
`0x7` delivers, `SetAGCCompression r` reads register `0x7` and then writes
`(b AND 0xFC) OR r` to register `0x7`, returning what that write returns: the top
six bits of the written byte are those of `b`, its low two bits are `r`. -/
theorem SetAGCCompression_writes {σ : Type} (T : I2C σ) (s s1 s2 : σ) (log : List BusOp)
    (buf : Fin 8 → Nat) (r b : Nat) (rest : List Nat)
    (hr : r ≤ 3) (hb : b < 256)
    (hw : T.Write s [0x7] = (s1, none))
    (hrd : T.Read s1 [0x7] = (s2, b :: rest, none)) :
    (SetAGCCompression (traced T) ⟨(s, log), buf⟩ r).1.i2c.2
        = log ++ [BusOp.write [0x7], BusOp.read 1, BusOp.write [0x7, (b &&& 0xFC) ||| r]]
    ∧ (SetAGCCompression (traced T) ⟨(s, log), buf⟩ r).2
        = (T.Write s2 [0x7, (b &&& 0xFC) ||| r]).2
    ∧ (SetAGCCompression (traced T) ⟨(s, log), buf⟩ r).1.i2c.1
        = (T.Write s2 [0x7, (b &&& 0xFC) ||| r]).1
    ∧ ((b &&& 0xFC) ||| r) / 4 = b / 4
    ∧ ((b &&& 0xFC) ||| r) % 4 = r := by
  have hbits := ratio_bits b hb r (by omega)
  have hnot : ¬ r > 3 := by omega
  have hrb := readByte_traced T s log buf 0x7 s1 s2 b rest none hw hrd
  refine ⟨?_, ?_, ?_, hbits.2.2.1, hbits.2.2.2⟩
  · simp only [SetAGCCompression, hnot, if_false, hrb, writeByte_eq, traced_Write, hbits.1,
      regAGC]
    simp
  · simp only [SetAGCCompression, hnot, if_false, hrb, writeByte_eq, traced_Write, hbits.1,
      regAGC]
  · simp only [SetAGCCompression, hnot, if_false, hrb, writeByte_eq, traced_Write, hbits.1,
      regAGC]

/-- Witness for C3: ratio 2 on a chip whose register `0x7` holds `0xA5`. -/
theorem SetAGCCompression_writes_witness :
    (SetAGCCompression (traced chipBus) ⟨(chipWith 0xA5, []), fun _ => 0⟩ 2).1.i2c.2
        = [BusOp.write [0x7], BusOp.read 1, BusOp.write [0x7, 0xA6]]
    ∧ (SetAGCCompression (traced chipBus) ⟨(chipWith 0xA5, []), fun _ => 0⟩ 2).2 = none :=
  ⟨(SetAGCCompression_writes chipBus (chipWith 0xA5) ⟨(chipWith 0xA5).regs, 7⟩
      ⟨(chipWith 0xA5).regs, 7⟩ [] (fun _ => 0) 2 0xA5 [] (by decide) (by decide) rfl rfl).1,
   (SetAGCCompression_writes chipBus (chipWith 0xA5) ⟨(chipWith 0xA5).regs, 7⟩
      ⟨(chipWith 0xA5).regs, 7⟩ [] (fun _ => 0) 2 0xA5 [] (by decide) (by decide) rfl rfl).2.1⟩

/-- C4: for every ratio above 3, `SetAGCCompression` returns the error made by
`errors.New` and nothing else happens: the handle, the scratch array, the device
state and the log of bus calls are all what they were. -/
theorem SetAGCCompression_rejects {σ : Type} (T : I2C σ) (s : σ) (log : List BusOp)
    (buf : Fin 8 → Nat) (r : Nat) (hr : 3 < r) :
    SetAGCCompression (traced T) ⟨(s, log), buf⟩ r
        = (⟨(s, log), buf⟩, some (Error.errorsNew ("tpa2016: agc ratio out of range")))
    ∧ SetAGCCompression T ⟨s, buf⟩ r
        = (⟨s, buf⟩, some (Error.errorsNew ("tpa2016: agc ratio out of range"))) := by
  have h : r > 3 := hr
  constructor <;> simp only [SetAGCCompression, h, if_true]

/-- Witness for C4: ratio 4 on the register-file bus. -/
theorem SetAGCCompression_rejects_witness :
    3 < 4 ∧ (SetAGCCompression (traced chipBus) ⟨(chipWith 0xA5, []), fun _ => 0⟩ 4).1.i2c.2 = []
      ∧ (SetAGCCompression (traced chipBus) ⟨(chipWith 0xA5, []), fun _ => 0⟩ 4).2
          = some (Error.errorsNew ("tpa2016: agc ratio out of range")) :=
  ⟨by decide,
   congrArg (fun x => x.1.i2c.2)
     (SetAGCCompression_rejects chipBus (chipWith 0xA5) [] (fun _ => 0) 4 (by decide)).1,
   congrArg (fun x => x.2)
     (SetAGCCompression_rejects chipBus (chipWith 0xA5) [] (fun _ => 0) 4 (by decide)).1⟩

/-! ## AGC maximum gain -/

theorem traced_Write_log {σ : Type} (T : I2C σ) (x : σ × List BusOp) (p : List Nat) :
    ((traced T).Write x p).1.2 = x.2 ++ [BusOp.write p] :=
  rfl

/-- Every register read on the traced transport starts by logging the
one-byte address write. -/
theorem readByte_traced_log {σ : Type} (T : I2C σ) (s : σ) (log : List BusOp)
    (buf : Fin 8 → Nat) (register : Nat) :
    ∃ rest, (readByte (traced T) ⟨(s, log), buf⟩ register).1.i2c.2
      = log ++ BusOp.write [register] :: rest := by
  unfold readByte
  simp only [slice_one, setBuf_same, traced_Write]
  split
  · exact ⟨[], rfl⟩
  · exact ⟨[BusOp.read 1], by simp [traced_Read]⟩

/-- C5: for every `g` in 18..30 and every byte `b` that the read of the AGC control
register `0x7` delivers, `SetAGCMaxGain g` writes back `(b AND 0x0F) OR ((g-18) << 4)`
and returns what that write returns: the low four bits of the written byte are
those of `b`, its top four bits are the number `g - 18`, which fits (under 13), so
the shift loses nothing. -/
theorem SetAGCMaxGain_writes {σ : Type} (T : I2C σ) (s s1 s2 : σ) (log : List BusOp)
    (buf : Fin 8 → Nat) (g : Int) (b : Nat) (rest : List Nat)
    (hlo : 18 ≤ g) (hhi : g ≤ 30) (hb : b < 256)
    (hw : T.Write s [0x7] = (s1, none))
    (hrd : T.Read s1 [0x7] = (s2, b :: rest, none)) :
    (SetAGCMaxGain (traced T) ⟨(s, log), buf⟩ g).1.i2c.2
        = log ++ [BusOp.write [0x7], BusOp.read 1,
                  BusOp.write [0x7, (b &&& 0x0F) ||| ((g - 18).toNat <<< 4)]]
    ∧ (SetAGCMaxGain (traced T) ⟨(s, log), buf⟩ g).2
        = (T.Write s2 [0x7, (b &&& 0x0F) ||| ((g - 18).toNat <<< 4)]).2
    ∧ (SetAGCMaxGain (traced T) ⟨(s, log), buf⟩ g).1.i2c.1
        = (T.Write s2 [0x7, (b &&& 0x0F) ||| ((g - 18).toNat <<< 4)]).1
    ∧ ((b &&& 0x0F) ||| ((g - 18).toNat <<< 4)) % 16 = b % 16
    ∧ ((((b &&& 0x0F) ||| ((g - 18).toNat <<< 4)) / 16 : Nat) : Int) = g - 18
    ∧ ((b &&& 0x0F) ||| ((g - 18).toNat <<< 4)) < 256 := by
  have hk := toByte_maxGain g hlo hhi
  have hbits := maxGain_bits b hb (g - 18).toNat hk.2
  have hnot : ¬ (g < 18 ∨ g > 30) := by omega
  have hrb := readByte_traced T s log buf 0x7 s1 s2 b rest none hw hrd
  refine ⟨?_, ?_, ?_, hbits.2.2.1, ?_, hbits.2.1⟩
  · simp only [SetAGCMaxGain, hnot, if_false, hrb, writeByte_eq, traced_Write, hk.1, hbits.1,
      regAGC]
    simp
  · simp only [SetAGCMaxGain, hnot, if_false, hrb, writeByte_eq, traced_Write, hk.1, hbits.1,
      regAGC]
  · simp only [SetAGCMaxGain, hnot, if_false, hrb, writeByte_eq, traced_Write, hk.1, hbits.1,
      regAGC]
  · rw [hbits.2.2.2]
    omega

/-- Witness for C5: 24 dB on a chip whose register `0x7` holds `0xA5`. -/
theorem SetAGCMaxGain_writes_witness :
    (SetAGCMaxGain (traced chipBus) ⟨(chipWith 0xA5, []), fun _ => 0⟩ 24).1.i2c.2
        = [BusOp.write [0x7], BusOp.read 1, BusOp.write [0x7, 0x65]]
    ∧ (SetAGCMaxGain (traced chipBus) ⟨(chipWith 0xA5, []), fun _ => 0⟩ 24).2 = none :=
  ⟨(SetAGCMaxGain_writes chipBus (chipWith 0xA5) ⟨(chipWith 0xA5).regs, 7⟩
      ⟨(chipWith 0xA5).regs, 7⟩ [] (fun _ => 0) 24 0xA5 [] (by decide) (by decide) (by decide)
      rfl rfl).1,
   (SetAGCMaxGain_writes chipBus (chipWith 0xA5) ⟨(chipWith 0xA5).regs, 7⟩
      ⟨(chipWith 0xA5).regs, 7⟩ [] (fun _ => 0) 24 0xA5 [] (by decide) (by decide) (by decide)
      rfl rfl).2.1⟩

/-- C6: for every integer `g` below 18 or above 30, `SetAGCMaxGain g` returns the
error made by `errors.New` with the handle, the device state and the log of bus
calls unchanged (no write, no read).  For every `g` in 18..30 the argument is
accepted: the call goes on to the bus (its first logged call is the address write
`[0x7]`) and, on a transport none of whose calls fails, it returns no error. -/
theorem SetAGCMaxGain_range_check {σ : Type} (T : I2C σ) (s : σ) (log : List BusOp)
    (buf : Fin 8 → Nat) (g : Int) :
    ((g < 18 ∨ g > 30) →
        SetAGCMaxGain (traced T) ⟨(s, log), buf⟩ g
          = (⟨(s, log), buf⟩,
              some (Error.errorsNew ("tpa2016: agc max gain must be in the range [18, 30]")))
        ∧ SetAGCMaxGain T ⟨s, buf⟩ g
          = (⟨s, buf⟩,
              some (Error.errorsNew ("tpa2016: agc max gain must be in the range [18, 30]"))))
    ∧ ((18 ≤ g ∧ g ≤ 30) →
        (∃ rest, (SetAGCMaxGain (traced T) ⟨(s, log), buf⟩ g).1.i2c.2
            = log ++ BusOp.write [0x7] :: rest)
        ∧ ((∀ x p, (T.Write x p).2 = none) → (∀ x p, (T.Read x p).2.2 = none) →
            (SetAGCMaxGain T ⟨s, buf⟩ g).2 = none)) := by
  constructor
  · intro h
    constructor <;> simp only [SetAGCMaxGain, h, if_true]
  · intro h
    have hnot : ¬ (g < 18 ∨ g > 30) := by omega
    constructor
    · obtain ⟨rest, hrest⟩ := readByte_traced_log T s log buf 0x7
      simp only [SetAGCMaxGain, hnot, if_false, regAGC]
      split
      · exact ⟨rest, hrest⟩
      · rw [writeByte_eq]
        simp only [traced_Write_log, hrest, List.append_assoc, List.cons_append]
        exact ⟨_, rfl⟩
    · intro hW hR
      have hw : T.Write s [0x7] = ((T.Write s [0x7]).1, none) :=
        Prod.ext rfl (hW s [0x7])
      have hr : T.Read (T.Write s [0x7]).1 [0x7]
          = ((T.Read (T.Write s [0x7]).1 [0x7]).1, (T.Read (T.Write s [0x7]).1 [0x7]).2.1, none) :=
        Prod.ext rfl (Prod.ext rfl (hR _ _))
      have hrb := readByte_read_done T ⟨s, buf⟩ 0x7 _ _ _ _ hw hr
      simp only [SetAGCMaxGain, hnot, if_false, regAGC, hrb, writeByte_eq, hW]

/-- Witness for C6: 17 is rejected with no bus call, 30 is accepted. -/
theorem SetAGCMaxGain_range_check_witness :
    (SetAGCMaxGain (traced chipBus) ⟨(chipWith 0xA5, []), fun _ => 0⟩ 17).1.i2c.2 = []
    ∧ (SetAGCMaxGain (traced chipBus) ⟨(chipWith 0xA5, []), fun _ => 0⟩ 17).2
        = some (Error.errorsNew ("tpa2016: agc max gain must be in the range [18, 30]"))
    ∧ (SetAGCMaxGain chipBus ⟨chipWith 0xA5, fun _ => 0⟩ 30).2 = none :=
  ⟨congrArg (fun x => x.1.i2c.2)
     ((SetAGCMaxGain_range_check chipBus (chipWith 0xA5) [] (fun _ => 0) 17).1
       (Or.inl (by decide))).1,
   congrArg (fun x => x.2)
     ((SetAGCMaxGain_range_check chipBus (chipWith 0xA5) [] (fun _ => 0) 17).1
       (Or.inl (by decide))).1,
   ((SetAGCMaxGain_range_check chipBus (chipWith 0xA5) [] (fun _ => 0) 30).2
       ⟨by decide, by decide⟩).2 (fun _ _ => by simp [chipBus]; split <;> rfl) (fun _ _ => rfl)⟩

/-- The whole result of `SetAGCMaxGain` on the traced transport when the argument
is in range and the register read is answered with `b`. -/
theorem SetAGCMaxGain_traced_eq {σ : Type} (T : I2C σ) (s s1 s2 : σ) (log : List BusOp)
    (buf : Fin 8 → Nat) (g : Int) (b : Nat) (rest : List Nat)
    (hlo : 18 ≤ g) (hhi : g ≤ 30) (hb : b < 256)
    (hw : T.Write s [0x7] = (s1, none))
    (hrd : T.Read s1 [0x7] = (s2, b :: rest, none)) :
    SetAGCMaxGain (traced T) ⟨(s, log), buf⟩ g
      = (⟨((T.Write s2 [0x7, (b &&& 0x0F) ||| ((g - 18).toNat <<< 4)]).1,
            log ++ [BusOp.write [0x7], BusOp.read 1,
                    BusOp.write [0x7, (b &&& 0x0F) ||| ((g - 18).toNat <<< 4)]]),
           setBuf (setBuf (setBuf (setBuf buf 0 0x7) 0 b) 0 0x7) 1
             ((b &&& 0x0F) ||| ((g - 18).toNat <<< 4))⟩,
         (T.Write s2 [0x7, (b &&& 0x0F) ||| ((g - 18).toNat <<< 4)]).2) := by
  have hk := toByte_maxGain g hlo hhi
  have hbits := maxGain_bits b hb (g - 18).toNat hk.2
  have hnot : ¬ (g < 18 ∨ g > 30) := by omega
  have hrb := readByte_traced T s log buf 0x7 s1 s2 b rest none hw hrd
  simp only [SetAGCMaxGain, hnot, if_false, hrb, writeByte_eq, traced_Write, hk.1, hbits.1,
    regAGC]
  simp

/-- C7, as the code has it: for every `g` in 18..30, on the register-file bus,
`SetAGCMaxGain g` stores the 4-bit field `g - 18` in bits 4-7 of the AGC control
register at address `0x7`, keeping its low four bits; the address byte of both
bus writes is `0x7`, and every other register, `0x6` included, keeps its value. -/
theorem SetAGCMaxGain_stores_in_0x7 (c : Chip) (log : List BusOp) (buf : Fin 8 → Nat)
    (g : Int) (hlo : 18 ≤ g) (hhi : g ≤ 30) (hb : c.regs 0x7 < 256) :
    (SetAGCMaxGain (traced chipBus) ⟨(c, log), buf⟩ g).1.i2c.1.regs 0x7
        = ((c.regs 0x7 &&& 0x0F) ||| ((g - 18).toNat <<< 4))
    ∧ (((SetAGCMaxGain (traced chipBus) ⟨(c, log), buf⟩ g).1.i2c.1.regs 0x7 / 16 : Nat) : Int)
        = g - 18
    ∧ (SetAGCMaxGain (traced chipBus) ⟨(c, log), buf⟩ g).1.i2c.1.regs 0x7 % 16
        = c.regs 0x7 % 16
    ∧ (∀ k, k ≠ 0x7 →
        (SetAGCMaxGain (traced chipBus) ⟨(c, log), buf⟩ g).1.i2c.1.regs k = c.regs k)
    ∧ (SetAGCMaxGain (traced chipBus) ⟨(c, log), buf⟩ g).1.i2c.2
        = log ++ [BusOp.write [0x7], BusOp.read 1,
                  BusOp.write [0x7, (c.regs 0x7 &&& 0x0F) ||| ((g - 18).toNat <<< 4)]]
    ∧ (SetAGCMaxGain (traced chipBus) ⟨(c, log), buf⟩ g).2 = none := by
  have hk := toByte_maxGain g hlo hhi
  have hbits := maxGain_bits (c.regs 0x7) hb (g - 18).toNat hk.2
  have heq := SetAGCMaxGain_traced_eq chipBus c ⟨c.regs, 0x7⟩ ⟨c.regs, 0x7⟩ log buf g
    (c.regs 0x7) [] hlo hhi hb rfl rfl
  rw [heq]
  refine ⟨?_, ?_, ?_, ?_, rfl, rfl⟩
  · simp [chipBus]
  · have h1 : (chipBus.Write ⟨c.regs, 0x7⟩
        [0x7, (c.regs 0x7 &&& 0x0F) ||| ((g - 18).toNat <<< 4)]).1.regs 0x7
        = ((c.regs 0x7 &&& 0x0F) ||| ((g - 18).toNat <<< 4)) := by
      simp [chipBus]
    simp only [h1, hbits.2.2.2]
    omega
  · have h1 : (chipBus.Write ⟨c.regs, 0x7⟩
        [0x7, (c.regs 0x7 &&& 0x0F) ||| ((g - 18).toNat <<< 4)]).1.regs 0x7
        = ((c.regs 0x7 &&& 0x0F) ||| ((g - 18).toNat <<< 4)) := by
      simp [chipBus]
    simp only [h1, hbits.2.2.1]
  · intro k hk7
    simp [chipBus, hk7]

/-- Witness for C7: 30 dB on a chip whose registers all hold `0x05`. -/
theorem SetAGCMaxGain_stores_in_0x7_witness :
    (SetAGCMaxGain (traced chipBus) ⟨(chipWith 0x05, []), fun _ => 0⟩ 30).1.i2c.1.regs 0x7 = 0xC5
    ∧ (SetAGCMaxGain (traced chipBus) ⟨(chipWith 0x05, []), fun _ => 0⟩ 30).1.i2c.1.regs 0x6
        = 0x05 :=
  ⟨(SetAGCMaxGain_stores_in_0x7 (chipWith 0x05) [] (fun _ => 0) 30 (by decide) (by decide)
      (by decide)).1,
   (SetAGCMaxGain_stores_in_0x7 (chipWith 0x05) [] (fun _ => 0) 30 (by decide) (by decide)
      (by decide)).2.2.2.1 0x6 (by decide)⟩

/-- C7 as stated fails: with every register holding 0, `SetAGCMaxGain 30` sends the
address byte `0x7` in both of its bus writes, none with `0x6`; afterwards register
`0x6` still holds 0 (its bits 4-7 are 0, not `30 - 18 = 12`) and register `0x7`
holds `0xC0`. -/
theorem SetAGCMaxGain_not_register_0x6 :
    (SetAGCMaxGain (traced chipBus) ⟨(chipWith 0, []), fun _ => 0⟩ 30).1.i2c.2
        = [BusOp.write [0x7], BusOp.read 1, BusOp.write [0x7, 0xC0]]
    ∧ (SetAGCMaxGain (traced chipBus) ⟨(chipWith 0, []), fun _ => 0⟩ 30).1.i2c.1.regs 0x6 = 0
    ∧ (SetAGCMaxGain (traced chipBus) ⟨(chipWith 0, []), fun _ => 0⟩ 30).1.i2c.1.regs 0x6 / 16
        ≠ 30 - 18
    ∧ (SetAGCMaxGain (traced chipBus) ⟨(chipWith 0, []), fun _ => 0⟩ 30).1.i2c.1.regs 0x7 = 0xC0
    ∧ (SetAGCMaxGain (traced chipBus) ⟨(chipWith 0, []), fun _ => 0⟩ 30).2 = none := by
  decide

/-! ## Channel enable -/

set_option maxRecDepth 1000000 in
/-- The byte `EnableChannel` computes from the setup byte it read. -/
theorem channel_bits (s : Nat) (hs : s < 256) (right left : Bool) :
    (if left = true then
        (if right = true then s ||| setupREnabled else andNot s setupREnabled) ||| setupLEnabled
      else andNot (if right = true then s ||| setupREnabled else andNot s setupREnabled)
        setupLEnabled) = withChannels s right left
    ∧ (withChannels s right left).testBit 7 = right
    ∧ (withChannels s right left).testBit 6 = left
    ∧ (withChannels s right left) % 64 = s % 64
    ∧ withChannels s right left < 256 := by
  revert s
  cases right <;> cases left <;> decide

/-- C8: for every setup byte `s` that the read of register `0x1` delivers and all
booleans `right`, `left`, `EnableChannel right left` writes to register `0x1` the
byte `withChannels s right left`: bit 7 is `right`, bit 6 is `left`, bits 0-5 are
those of `s`; it returns what that write returns. -/
theorem EnableChannel_writes {σ : Type} (T : I2C σ) (s s1 s2 : σ) (log : List BusOp)
    (buf : Fin 8 → Nat) (sb : Nat) (rest : List Nat) (right left : Bool)
    (hsb : sb < 256)
    (hw : T.Write s [0x1] = (s1, none))
    (hrd : T.Read s1 [0x1] = (s2, sb :: rest, none)) :
    (EnableChannel (traced T) ⟨(s, log), buf⟩ right left).1.i2c.2
        = log ++ [BusOp.write [0x1], BusOp.read 1,
                  BusOp.write [0x1, withChannels sb right left]]
    ∧ (EnableChannel (traced T) ⟨(s, log), buf⟩ right left).2
        = (T.Write s2 [0x1, withChannels sb right left]).2
    ∧ (EnableChannel (traced T) ⟨(s, log), buf⟩ right left).1.i2c.1
        = (T.Write s2 [0x1, withChannels sb right left]).1
    ∧ (withChannels sb right left).testBit 7 = right
    ∧ (withChannels sb right left).testBit 6 = left
    ∧ (∀ i, i < 6 → (withChannels sb right left).testBit i = sb.testBit i)
    ∧ withChannels sb right left < 256 := by
  have hbits := channel_bits sb hsb right left
  have hrb := readByte_traced T s log buf 0x1 s1 s2 sb rest none hw hrd
  refine ⟨?_, ?_, ?_, hbits.2.1, hbits.2.2.1, ?_, hbits.2.2.2.2⟩
  · simp only [EnableChannel, hrb, writeByte_eq, traced_Write, hbits.1, setup]
    simp
  · simp only [EnableChannel, hrb, writeByte_eq, traced_Write, hbits.1, setup]
  · simp only [EnableChannel, hrb, writeByte_eq, traced_Write, hbits.1, setup]
  · intro i hi
    have h64 : (2 : Nat) ^ 6 = 64 := by norm_num
    have h1 := Nat.testBit_mod_two_pow (withChannels sb right left) 6 i
    have h2 := Nat.testBit_mod_two_pow sb 6 i
    rw [h64] at h1 h2
    rw [hbits.2.2.2.1] at h1
    rw [h2] at h1
    simpa [hi] using h1.symm

/-- Witness for C8: right on, left off, on a chip whose setup register holds `0x7F`. -/
theorem EnableChannel_writes_witness :
    (EnableChannel (traced chipBus) ⟨(chipWith 0x7F, []), fun _ => 0⟩ true false).1.i2c.2
        = [BusOp.write [0x1], BusOp.read 1, BusOp.write [0x1, 0xBF]]
    ∧ (EnableChannel (traced chipBus) ⟨(chipWith 0x7F, []), fun _ => 0⟩ true false).2 = none :=
  ⟨(EnableChannel_writes chipBus (chipWith 0x7F) ⟨(chipWith 0x7F).regs, 1⟩
      ⟨(chipWith 0x7F).regs, 1⟩ [] (fun _ => 0) 0x7F [] true false (by decide) rfl rfl).1,
   (EnableChannel_writes chipBus (chipWith 0x7F) ⟨(chipWith 0x7F).regs, 1⟩
      ⟨(chipWith 0x7F).regs, 1⟩ [] (fun _ => 0) 0x7F [] true false (by decide) rfl rfl).2.1⟩

/-! ## Fault flags -/

set_option maxRecDepth 1000000 in
/-- The three masks of `Faults` test bits 3, 4 and 2. -/
theorem fault_bits : ∀ s, s < 256 →
    (s &&& setupLFault != 0) = s.testBit 3
    ∧ (s &&& setupRFault != 0) = s.testBit 4
    ∧ (s &&& setupThermal != 0) = s.testBit 2 := by
  decide

set_option maxRecDepth 1000000 in
/-- Bytes that agree on bits 2-4 have the same three fault bits. -/
theorem fault_bits_masked : ∀ s, s < 256 →
    (s &&& 0x1C).testBit 3 = s.testBit 3
    ∧ (s &&& 0x1C).testBit 4 = s.testBit 4
    ∧ (s &&& 0x1C).testBit 2 = s.testBit 2 := by
  decide

/-- The results of `Faults` besides the handle, when the register read is
answered with `sb` and with the error result `r`. -/
theorem Faults_traced_eq {σ : Type} (T : I2C σ) (s s1 s2 : σ) (log : List BusOp)
    (buf : Fin 8 → Nat) (sb : Nat) (rest : List Nat) (r : Option Error) (hsb : sb < 256)
    (hw : T.Write s [0x1] = (s1, none))
    (hrd : T.Read s1 [0x1] = (s2, sb :: rest, r)) :
    Faults (traced T) ⟨(s, log), buf⟩
      = (⟨(s2, log ++ [BusOp.write [0x1], BusOp.read 1]), setBuf (setBuf buf 0 0x1) 0 sb⟩,
          sb.testBit 3, sb.testBit 4, sb.testBit 2, r) := by
  have hbits := fault_bits sb hsb
  have hrb := readByte_traced T s log buf 0x1 s1 s2 sb rest r hw hrd
  simp only [Faults, setup, hrb, hbits.1, hbits.2.1, hbits.2.2]

/-- C9: for every setup byte `sb` that a successful read of register `0x1`
delivers, `Faults` returns, in this order, `left` = bit 3 of `sb`, `right` = bit 4,
`thermal` = bit 2, and no error; the bus sees the address write `[0x1]` and one
one-byte read, and no register write; and a run in which the read delivers any
byte `sb2` with the same bits 2-4 returns the same three flags. -/
theorem Faults_decodes {σ : Type} (T : I2C σ) (s s1 s2 : σ) (log : List BusOp)
    (buf : Fin 8 → Nat) (sb : Nat) (rest : List Nat) (hsb : sb < 256)
    (hw : T.Write s [0x1] = (s1, none))
    (hrd : T.Read s1 [0x1] = (s2, sb :: rest, none))
    {τ : Type} (U : I2C τ) (u u1 u2 : τ) (log2 : List BusOp) (buf2 : Fin 8 → Nat)
    (sb2 : Nat) (rest2 : List Nat) (hsb2 : sb2 < 256)
    (hw2 : U.Write u [0x1] = (u1, none))
    (hrd2 : U.Read u1 [0x1] = (u2, sb2 :: rest2, none))
    (hsame : sb2 &&& 0x1C = sb &&& 0x1C) :
    (Faults (traced T) ⟨(s, log), buf⟩).2 = (sb.testBit 3, sb.testBit 4, sb.testBit 2, none)
    ∧ (Faults (traced T) ⟨(s, log), buf⟩).1.i2c
        = (s2, log ++ [BusOp.write [0x1], BusOp.read 1])
    ∧ (Faults (traced U) ⟨(u, log2), buf2⟩).2 = (Faults (traced T) ⟨(s, log), buf⟩).2 := by
  rw [Faults_traced_eq T s s1 s2 log buf sb rest none hsb hw hrd,
    Faults_traced_eq U u u1 u2 log2 buf2 sb2 rest2 none hsb2 hw2 hrd2]
  refine ⟨rfl, rfl, ?_⟩
  have h1 := fault_bits_masked sb hsb
  have h2 := fault_bits_masked sb2 hsb2
  rw [hsame] at h2
  simp only [← h1.1, ← h1.2.1, ← h1.2.2, ← h2.1, ← h2.2.1, ← h2.2.2]

/-- Witness for C9: a chip reporting `0x88` (left fault, right channel enabled),
compared with a chip reporting `0x0B`, which has the same bits 2-4. -/
theorem Faults_decodes_witness :
    (Faults (traced chipBus) ⟨(chipWith 0x88, []), fun _ => 0⟩).2 = (true, false, false, none)
    ∧ (Faults (traced chipBus) ⟨(chipWith 0x88, []), fun _ => 0⟩).1.i2c.2
        = [BusOp.write [0x1], BusOp.read 1]
    ∧ (Faults (traced chipBus) ⟨(chipWith 0x0B, []), fun _ => 0⟩).2
        = (Faults (traced chipBus) ⟨(chipWith 0x88, []), fun _ => 0⟩).2 :=
  ⟨(Faults_decodes chipBus (chipWith 0x88) ⟨(chipWith 0x88).regs, 1⟩ ⟨(chipWith 0x88).regs, 1⟩
      [] (fun _ => 0) 0x88 [] (by decide) rfl rfl
      chipBus (chipWith 0x0B) ⟨(chipWith 0x0B).regs, 1⟩ ⟨(chipWith 0x0B).regs, 1⟩
      [] (fun _ => 0) 0x0B [] (by decide) rfl rfl (by decide)).1,
   congrArg Prod.snd
    (Faults_decodes chipBus (chipWith 0x88) ⟨(chipWith 0x88).regs, 1⟩ ⟨(chipWith 0x88).regs, 1⟩
      [] (fun _ => 0) 0x88 [] (by decide) rfl rfl
      chipBus (chipWith 0x0B) ⟨(chipWith 0x0B).regs, 1⟩ ⟨(chipWith 0x0B).regs, 1⟩
      [] (fun _ => 0) 0x0B [] (by decide) rfl rfl (by decide)).2.1,
   (Faults_decodes chipBus (chipWith 0x88) ⟨(chipWith 0x88).regs, 1⟩ ⟨(chipWith 0x88).regs, 1⟩
      [] (fun _ => 0) 0x88 [] (by decide) rfl rfl
      chipBus (chipWith 0x0B) ⟨(chipWith 0x0B).regs, 1⟩ ⟨(chipWith 0x0B).regs, 1⟩
      [] (fun _ => 0) 0x0B [] (by decide) rfl rfl (by decide)).2.2⟩

theorem storeInto_one_head (buf : Fin 8 → Nat) (register : Nat) (d : List Nat) :
    storeInto (setBuf buf 0 register) 1 d 0 = d.headD register := by
  cases d <;> simp [storeInto, setBuf]

/-- C10: on a transport that keeps the bus contract (a failed read stores
nothing), whenever the register read inside `Faults` fails, whether the
address-byte write fails or the subsequent one-byte bus read fails, `Faults`
returns that error together with `left = right = thermal = false`. -/
theorem Faults_on_failure {σ : Type} (T : I2C σ) (hT : ReadAllOrNothing T) (a : Amp σ)
    (e : Error) :
    (∀ s1, T.Write a.i2c [0x1] = (s1, some e) →
        (Faults T a).2 = (false, false, false, some e))
    ∧ (∀ s1 s2 d, T.Write a.i2c [0x1] = (s1, none) → T.Read s1 [0x1] = (s2, d, some e) →
        (Faults T a).2 = (false, false, false, some e))
    ∧ ((readByte T a setup).2.2 = some e →
        (Faults T a).2 = (false, false, false, some e)) := by
  have hwrite : ∀ s1, T.Write a.i2c [0x1] = (s1, some e) →
      (Faults T a).2 = (false, false, false, some e) := by
    intro s1 hw
    simp only [Faults, setup, readByte_write_failed T a 0x1 s1 e hw]
    rfl
  have hread : ∀ s1 s2 d, T.Write a.i2c [0x1] = (s1, none) →
      T.Read s1 [0x1] = (s2, d, some e) →
      (Faults T a).2 = (false, false, false, some e) := by
    intro s1 s2 d hw hr
    have hd := hT s1 [0x1] e (by rw [hr])
    rw [hr] at hd
    simp only at hd
    subst hd
    simp only [Faults, setup, readByte_read_done T a 0x1 s1 s2 [] (some e) hw hr,
      storeInto_one_head]
    rfl
  refine ⟨hwrite, hread, ?_⟩
  intro hfail
  rw [show setup = 0x1 from rfl] at hfail
  rcases hW : T.Write a.i2c [0x1] with ⟨s1, _ | e1⟩
  · rcases hR : T.Read s1 [0x1] with ⟨s2, d, r⟩
    rw [readByte_read_done T a 0x1 s1 s2 d r hW hR] at hfail
    simp only at hfail
    subst hfail
    exact hread s1 s2 d hW hR
  · rw [readByte_write_failed T a 0x1 s1 e1 hW] at hfail
    simp only [Option.some.injEq] at hfail
    subst hfail
    exact hwrite s1 hW

/-- Witness for C10: a bus whose writes fail, and a bus whose reads fail. -/
theorem Faults_on_failure_witness :
    (Faults (failingWriteBus (Error.bus 5)) (newAmp ())).2
        = (false, false, false, some (Error.bus 5))
    ∧ (Faults (failingReadBus [] (Error.bus 6)) (newAmp ())).2
        = (false, false, false, some (Error.bus 6)) :=
  ⟨(Faults_on_failure (failingWriteBus (Error.bus 5)) (fun _ _ _ _ => rfl) (newAmp ())
      (Error.bus 5)).1 () rfl,
   (Faults_on_failure (failingReadBus [] (Error.bus 6)) (fun _ _ _ _ => rfl) (newAmp ())
      (Error.bus 6)).2.2 rfl⟩

/-! ## The register read primitive on the traced transport -/

theorem readByte_traced_write_failed {σ : Type} (T : I2C σ) (s : σ) (log : List BusOp)
    (buf : Fin 8 → Nat) (register : Nat) (s1 : σ) (e : Error)
    (hw : T.Write s [register] = (s1, some e)) :
    readByte (traced T) ⟨(s, log), buf⟩ register
      = (⟨(s1, log ++ [BusOp.write [register]]), setBuf buf 0 register⟩, 0, some e) := by
  have hw2 : (traced T).Write (s, log) [register]
      = ((s1, log ++ [BusOp.write [register]]), some e) := by
    rw [traced_Write, hw]
  exact readByte_write_failed (traced T) ⟨(s, log), buf⟩ register _ e hw2

theorem readByte_traced_read_done {σ : Type} (T : I2C σ) (s : σ) (log : List BusOp)
    (buf : Fin 8 → Nat) (register : Nat) (s1 s2 : σ) (d : List Nat) (r : Option Error)
    (hw : T.Write s [register] = (s1, none))
    (hr : T.Read s1 [register] = (s2, d, r)) :
    readByte (traced T) ⟨(s, log), buf⟩ register
      = (⟨(s2, log ++ [BusOp.write [register], BusOp.read 1]),
            storeInto (setBuf buf 0 register) 1 d⟩,
          storeInto (setBuf buf 0 register) 1 d 0, r) := by
  have hw2 : (traced T).Write (s, log) [register]
      = ((s1, log ++ [BusOp.write [register]]), none) := by
    rw [traced_Write, hw]
  have hr2 : (traced T).Read (s1, log ++ [BusOp.write [register]]) [register]
      = ((s2, log ++ [BusOp.write [register], BusOp.read 1]), d, r) := by
    rw [traced_Read, hr]
    simp
  exact readByte_read_done (traced T) ⟨(s, log), buf⟩ register _ _ d r hw2 hr2

/-- C11: for every byte `b` that the read of the fixed-gain register `0x5`
delivers with no bus failure, `Gain` returns exactly the integer `b`, undecoded
(so a value in 0..255), with no error; the bus sees the address write `[0x5]` and
one one-byte read, and no register write. -/
theorem Gain_returns_raw_byte {σ : Type} (T : I2C σ) (s s1 s2 : σ) (log : List BusOp)
    (buf : Fin 8 → Nat) (b : Nat) (rest : List Nat) (hb : b < 256)
    (hw : T.Write s [0x5] = (s1, none))
    (hrd : T.Read s1 [0x5] = (s2, b :: rest, none)) :
    (Gain (traced T) ⟨(s, log), buf⟩).2 = ((b : Int), none)
    ∧ (Gain (traced T) ⟨(s, log), buf⟩).1.i2c
        = (s2, log ++ [BusOp.write [0x5], BusOp.read 1])
    ∧ 0 ≤ (Gain (traced T) ⟨(s, log), buf⟩).2.1
    ∧ (Gain (traced T) ⟨(s, log), buf⟩).2.1 ≤ 255 := by
  have hrb := readByte_traced T s log buf 0x5 s1 s2 b rest none hw hrd
  rw [Gain, show regGain = 0x5 from rfl, hrb]
  refine ⟨rfl, rfl, ?_, ?_⟩
  · exact Int.ofNat_nonneg b
  · show (b : Int) ≤ 255
    omega

/-- Witness for C11: a chip whose gain register holds `0x3F`. -/
theorem Gain_returns_raw_byte_witness :
    (Gain (traced chipBus) ⟨(chipWith 0x3F, []), fun _ => 0⟩).2 = (63, none)
    ∧ (Gain (traced chipBus) ⟨(chipWith 0x3F, []), fun _ => 0⟩).1.i2c.2
        = [BusOp.write [0x5], BusOp.read 1] :=
  ⟨(Gain_returns_raw_byte chipBus (chipWith 0x3F) ⟨(chipWith 0x3F).regs, 5⟩
      ⟨(chipWith 0x3F).regs, 5⟩ [] (fun _ => 0) 0x3F [] (by decide) rfl rfl).1,
   congrArg Prod.snd
    (Gain_returns_raw_byte chipBus (chipWith 0x3F) ⟨(chipWith 0x3F).regs, 5⟩
      ⟨(chipWith 0x3F).regs, 5⟩ [] (fun _ => 0) 0x3F [] (by decide) rfl rfl).2.1⟩

/-- C12: for every setup byte `sb` that the read delivers and all booleans
`right`, `left`, on a bus whose address write and read do not fail,
`EnableChannel right left` makes exactly three bus calls, in this order: the
one-byte write `[0x01]`, a one-byte read, and the two-byte write
`[0x01, withChannels sb right left]`; the handle it leaves and the result it
returns are those of that last write.  With register `0x1` holding `0b00000000`,
`EnableChannel true false` writes `0b10000000`, which the chip then holds. -/
theorem EnableChannel_bus_trace {σ : Type} (T : I2C σ) (s s1 s2 : σ) (log : List BusOp)
    (buf : Fin 8 → Nat) (sb : Nat) (rest : List Nat) (right left : Bool)
    (hsb : sb < 256)
    (hw : T.Write s [0x01] = (s1, none))
    (hrd : T.Read s1 [0x01] = (s2, sb :: rest, none)) :
    EnableChannel (traced T) ⟨(s, log), buf⟩ right left
        = (⟨((T.Write s2 [0x01, withChannels sb right left]).1,
              log ++ [BusOp.write [0x01], BusOp.read 1,
                      BusOp.write [0x01, withChannels sb right left]]),
             setBuf (setBuf (setBuf (setBuf buf 0 0x01) 0 sb) 0 0x01) 1
               (withChannels sb right left)⟩,
           (T.Write s2 [0x01, withChannels sb right left]).2)
    ∧ (EnableChannel (traced chipBus) ⟨(chipWith 0b00000000, []), fun _ => 0⟩ true false).1.i2c.2
        = [BusOp.write [0x01], BusOp.read 1, BusOp.write [0x01, 0b10000000]]
    ∧ (EnableChannel (traced chipBus)
          ⟨(chipWith 0b00000000, []), fun _ => 0⟩ true false).1.i2c.1.regs 0x01 = 0b10000000 := by
  have hbits := channel_bits sb hsb right left
  have hrb := readByte_traced T s log buf 0x01 s1 s2 sb rest none hw hrd
  refine ⟨?_, by decide, by decide⟩
  simp only [EnableChannel, hrb, writeByte_eq, traced_Write, hbits.1, setup]
  simp

/-- Witness for C12: both channels on, on a chip whose setup register holds `0x21`. -/
theorem EnableChannel_bus_trace_witness :
    (EnableChannel (traced chipBus) ⟨(chipWith 0x21, []), fun _ => 0⟩ true true).1.i2c.2
        = [BusOp.write [0x01], BusOp.read 1, BusOp.write [0x01, 0xE1]]
    ∧ (EnableChannel (traced chipBus) ⟨(chipWith 0x21, []), fun _ => 0⟩ true true).2 = none :=
  ⟨congrArg (fun x => x.1.i2c.2)
    (EnableChannel_bus_trace chipBus (chipWith 0x21) ⟨(chipWith 0x21).regs, 1⟩
      ⟨(chipWith 0x21).regs, 1⟩ [] (fun _ => 0) 0x21 [] true true (by decide) rfl rfl).1,
   congrArg (fun x => x.2)
    (EnableChannel_bus_trace chipBus (chipWith 0x21) ⟨(chipWith 0x21).regs, 1⟩
      ⟨(chipWith 0x21).regs, 1⟩ [] (fun _ => 0) 0x21 [] true true (by decide) rfl rfl).1⟩

/-- C14: for every register address `r`, `readByte r` first writes the single byte
`[r]` to the bus.  If that write fails, no read is attempted and the result is
`(0, that error)`.  Otherwise exactly one one-byte read follows and its error
result is returned; when both phases succeed and the bus delivered the byte `b`,
the result is `(b, no error)`. -/
theorem readByte_protocol {σ : Type} (T : I2C σ) (s : σ) (log : List BusOp)
    (buf : Fin 8 → Nat) (r : Nat) :
    (∃ rest, (readByte (traced T) ⟨(s, log), buf⟩ r).1.i2c.2 = log ++ BusOp.write [r] :: rest)
    ∧ (∀ s1 e, T.Write s [r] = (s1, some e) →
        (readByte (traced T) ⟨(s, log), buf⟩ r).2 = (0, some e)
        ∧ (readByte (traced T) ⟨(s, log), buf⟩ r).1.i2c = (s1, log ++ [BusOp.write [r]]))
    ∧ (∀ s1 s2 d res, T.Write s [r] = (s1, none) → T.Read s1 [r] = (s2, d, res) →
        (readByte (traced T) ⟨(s, log), buf⟩ r).2.2 = res
        ∧ (readByte (traced T) ⟨(s, log), buf⟩ r).1.i2c
            = (s2, log ++ [BusOp.write [r], BusOp.read 1]))
    ∧ (∀ s1 s2 b rest, T.Write s [r] = (s1, none) → T.Read s1 [r] = (s2, b :: rest, none) →
        (readByte (traced T) ⟨(s, log), buf⟩ r).2 = (b, none)) := by
  refine ⟨readByte_traced_log T s log buf r, ?_, ?_, ?_⟩
  · intro s1 e hw
    rw [readByte_traced_write_failed T s log buf r s1 e hw]
    exact ⟨rfl, rfl⟩
  · intro s1 s2 d res hw hr
    rw [readByte_traced_read_done T s log buf r s1 s2 d res hw hr]
    exact ⟨rfl, rfl⟩
  · intro s1 s2 b rest hw hr
    rw [readByte_traced T s log buf r s1 s2 b rest none hw hr]

/-- Witness for C14: a read of register `0x4` on a bus whose writes fail, and
on the register-file bus. -/
theorem readByte_protocol_witness :
    (readByte (traced (failingWriteBus (Error.bus 9))) ⟨((), []), fun _ => 0⟩ 0x4).2
        = (0, some (Error.bus 9))
    ∧ (readByte (traced (failingWriteBus (Error.bus 9))) ⟨((), []), fun _ => 0⟩ 0x4).1.i2c.2
        = [BusOp.write [0x4]]
    ∧ (readByte (traced chipBus) ⟨(chipWith 0x2A, []), fun _ => 0⟩ 0x4).2 = (0x2A, none) :=
  ⟨((readByte_protocol (failingWriteBus (Error.bus 9)) () [] (fun _ => 0) 0x4).2.1
      () (Error.bus 9) rfl).1,
   congrArg Prod.snd
    ((readByte_protocol (failingWriteBus (Error.bus 9)) () [] (fun _ => 0) 0x4).2.1
      () (Error.bus 9) rfl).2,
   (readByte_protocol chipBus (chipWith 0x2A) [] (fun _ => 0) 0x4).2.2.2
      ⟨(chipWith 0x2A).regs, 4⟩ ⟨(chipWith 0x2A).regs, 4⟩ 0x2A [] rfl rfl⟩

/-! ## The encoding of the fixed gain -/

theorem SetGain_traced_log {σ : Type} (T : I2C σ) (s : σ) (log : List BusOp)
    (buf : Fin 8 → Nat) (g : Int) :
    (SetGain (traced T) ⟨(s, log), buf⟩ g).1.i2c.2
      = log ++ [BusOp.write [0x5, toByte (clamp g (-28) 30) &&& 0x3f]] := by
  simp only [SetGain, writeByte_eq, goClamp_eq, traced_Write, regGain]

theorem clamp_bounds (g : Int) : -28 ≤ clamp g (-28) 30 ∧ clamp g (-28) 30 ≤ 30 := by
  unfold clamp
  omega

theorem gainByte_spec (g : Int) :
    ((toByte (clamp g (-28) 30) &&& 0x3f : Nat) : Int) = clamp g (-28) 30 % 64
    ∧ (toByte (clamp g (-28) 30) &&& 0x3f) < 64
    ∧ signExtend6 (toByte (clamp g (-28) 30) &&& 0x3f) = clamp g (-28) 30 := by
  have hb := clamp_bounds g
  rw [toByte_low6]
  generalize clamp g (-28) 30 = c at hb
  refine ⟨by omega, by omega, ?_⟩
  unfold signExtend6
  split <;> omega

/-- C15: for every integer `g`, the byte `v` that `SetGain g` writes to register
`0x5` is the 6-bit two's-complement encoding of the clamped gain: `v` equals
`clamp(g, -28, 30) mod 64`, is below 64, and sign-extending its low six bits gives
`clamp(g, -28, 30)` back; hence two gains in -28..30 that make `SetGain` write the
same byte are equal. -/
theorem SetGain_six_bit_encoding {σ : Type} (T : I2C σ) (s : σ) (log : List BusOp)
    (buf : Fin 8 → Nat) (g : Int) :
    (∃ v : Nat, (SetGain (traced T) ⟨(s, log), buf⟩ g).1.i2c.2 = log ++ [BusOp.write [0x5, v]]
        ∧ (v : Int) = clamp g (-28) 30 % 64
        ∧ v < 64
        ∧ signExtend6 v = clamp g (-28) 30)
    ∧ (∀ g2 : Int, -28 ≤ g → g ≤ 30 → -28 ≤ g2 → g2 ≤ 30 →
        (SetGain (traced T) ⟨(s, log), buf⟩ g2).1.i2c.2
          = (SetGain (traced T) ⟨(s, log), buf⟩ g).1.i2c.2 →
        g2 = g) := by
  constructor
  · exact ⟨_, SetGain_traced_log T s log buf g, gainByte_spec g⟩
  · intro g2 h1 h2 h3 h4 heq
    rw [SetGain_traced_log, SetGain_traced_log] at heq
    have hv := List.append_cancel_left heq
    simp only [List.cons.injEq, BusOp.write.injEq, and_true, true_and] at hv
    have e1 := (gainByte_spec g).2.2
    have e2 := (gainByte_spec g2).2.2
    rw [hv, e1] at e2
    have c1 : clamp g (-28) 30 = g := by unfold clamp; omega
    have c2 : clamp g2 (-28) 30 = g2 := by unfold clamp; omega
    rw [c1, c2] at e2
    exact e2.symm

/-- Witness for C15: -28 dB and -1 dB write different bytes (`0x24` and `0x3F`). -/
theorem SetGain_six_bit_encoding_witness :
    (SetGain (traced chipBus) ⟨(chipWith 0, []), fun _ => 0⟩ (-28)).1.i2c.2
        = [BusOp.write [0x5, 0x24]]
    ∧ signExtend6 0x24 = -28
    ∧ ((SetGain (traced chipBus) ⟨(chipWith 0, []), fun _ => 0⟩ (-1)).1.i2c.2
        = (SetGain (traced chipBus) ⟨(chipWith 0, []), fun _ => 0⟩ (-28)).1.i2c.2 →
        (-1 : Int) = -28) :=
  ⟨by decide, by decide,
   (SetGain_six_bit_encoding chipBus (chipWith 0) [] (fun _ => 0) (-28)).2 (-1)
     (by decide) (by decide) (by decide) (by decide)⟩

/-! ## Error propagation of the read-modify-write accessors -/

/-- The contract holds for the shape the three accessors share: read the
register, stop on an error, else write back a byte computed from the one read. -/
theorem rmw_contract {σ ρ : Type} (T : I2C σ) (regs : σ → ρ) (s : σ) (log : List BusOp)
    (buf : Fin 8 → Nat) (reg : Nat) (f : Nat → Nat)
    (hW1 : ∀ x a, regs (T.Write x [a]).1 = regs x)
    (hR : ∀ x p, regs (T.Read x p).1 = regs x) :
    RmwContract T regs s log reg
      (match (readByte (traced T) ⟨(s, log), buf⟩ reg).2.2 with
        | some err => ((readByte (traced T) ⟨(s, log), buf⟩ reg).1, some err)
        | none =>
          writeByte (traced T) (readByte (traced T) ⟨(s, log), buf⟩ reg).1 reg
            (f (readByte (traced T) ⟨(s, log), buf⟩ reg).2.1)) := by
  refine ⟨?_, ?_, ?_⟩
  · intro s1 e hw
    have h1 := hW1 s reg
    rw [hw] at h1
    rw [readByte_traced_write_failed T s log buf reg s1 e hw]
    exact ⟨rfl, rfl, h1⟩
  · intro s1 s2 d e hw hr
    have h1 := hW1 s reg
    rw [hw] at h1
    have h2 := hR s1 [reg]
    rw [hr] at h2
    rw [readByte_traced_read_done T s log buf reg s1 s2 d (some e) hw hr]
    exact ⟨rfl, rfl, h2.trans h1⟩
  · intro s1 s2 d hw hr
    rw [readByte_traced_read_done T s log buf reg s1 s2 d none hw hr]
    simp only [writeByte_eq, traced_Write]
    refine ⟨_, ?_, rfl⟩
    simp

/-- C13: each read-modify-write accessor (`EnableChannel`, `SetAGCCompression` with
a ratio in 0..3, `SetAGCMaxGain` with a gain in 18..30) meets `RmwContract`: when
the register read fails, at its address write or at its bus read, the accessor
returns exactly that error, logs no two-byte write, and leaves unchanged whatever
register contents `regs` address writes and reads leave unchanged; when the read
succeeds, the accessor makes one two-byte write more and returns its result. -/
theorem rmw_error_propagation {σ ρ : Type} (T : I2C σ) (regs : σ → ρ) (s : σ)
    (log : List BusOp) (buf : Fin 8 → Nat) (right left : Bool) (r : AGCRatio) (g : Int)
    (hr : r ≤ 3) (hlo : 18 ≤ g) (hhi : g ≤ 30)
    (hW1 : ∀ x a, regs (T.Write x [a]).1 = regs x)
    (hR : ∀ x p, regs (T.Read x p).1 = regs x) :
    RmwContract T regs s log 0x1 (EnableChannel (traced T) ⟨(s, log), buf⟩ right left)
    ∧ RmwContract T regs s log 0x7 (SetAGCCompression (traced T) ⟨(s, log), buf⟩ r)
    ∧ RmwContract T regs s log 0x7 (SetAGCMaxGain (traced T) ⟨(s, log), buf⟩ g) := by
  have hnr : ¬ r > 3 := Nat.not_lt.mpr hr
  have hng : ¬ (g < 18 ∨ g > 30) := by omega
  refine ⟨?_, ?_, ?_⟩
  · exact rmw_contract T regs s log buf 0x1
      (fun sb =>
        if left then
          (if right then sb ||| setupREnabled else andNot sb setupREnabled) ||| setupLEnabled
        else andNot (if right then sb ||| setupREnabled else andNot sb setupREnabled)
          setupLEnabled) hW1 hR
  · simp only [SetAGCCompression, hnr, if_false]
    exact rmw_contract T regs s log buf 0x7 (fun b => andNot b 3 ||| r) hW1 hR
  · simp only [SetAGCMaxGain, hng, if_false]
    exact rmw_contract T regs s log buf 0x7
      (fun b => andNot b 0xf0 ||| shlByte (toByte (g - 18)) 4) hW1 hR

/-- Witness for C13: on a chip whose bus reads fail, `EnableChannel` returns the
read's error after the address write and the read, and the setup register keeps
its value `0x55`. -/
theorem rmw_error_propagation_witness :
    (EnableChannel (traced (deafChipBus (Error.bus 3)))
        ⟨(chipWith 0x55, []), fun _ => 0⟩ true true).2 = some (Error.bus 3)
    ∧ (EnableChannel (traced (deafChipBus (Error.bus 3)))
        ⟨(chipWith 0x55, []), fun _ => 0⟩ true true).1.i2c
          = (⟨(chipWith 0x55).regs, 1⟩, [BusOp.write [0x1], BusOp.read 1])
    ∧ (EnableChannel (traced (deafChipBus (Error.bus 3)))
        ⟨(chipWith 0x55, []), fun _ => 0⟩ true true).1.i2c.1.regs = (chipWith 0x55).regs :=
  (rmw_error_propagation (deafChipBus (Error.bus 3)) Chip.regs (chipWith 0x55) []
      (fun _ => 0) true true 2 24 (by decide) (by decide) (by decide)
      (fun _ _ => rfl) (fun _ _ => rfl)).1.2.1
    ⟨(chipWith 0x55).regs, 1⟩ ⟨(chipWith 0x55).regs, 1⟩ [] (Error.bus 3) rfl rfl

/-! ## The two fields of the AGC control register -/

set_option maxRecDepth 10000000 in
theorem agc_fields_bits : ∀ b, b < 256 → ∀ r, r < 4 → ∀ k, k < 13 →
    ((((b &&& 0xFC) ||| r) &&& 0x0F) ||| (k <<< 4)) = ((b &&& 0x0C) ||| r ||| (k <<< 4))
    ∧ ((((b &&& 0x0F) ||| (k <<< 4)) &&& 0xFC) ||| r) = ((b &&& 0x0C) ||| r ||| (k <<< 4))
    ∧ ((b &&& 0xFC) ||| r) &&& 0x0C = b &&& 0x0C
    ∧ ((b &&& 0x0F) ||| (k <<< 4)) &&& 0x0C = b &&& 0x0C
    ∧ ((b &&& 0x0C) ||| r ||| (k <<< 4)) &&& 0x0C = b &&& 0x0C := by
  decide

/-- `SetAGCCompression` on the register-file bus: the chip afterwards. -/
theorem SetAGCCompression_chip (a : Amp Chip) (r : AGCRatio) (hr : r ≤ 3)
    (hb : a.i2c.regs 0x7 < 256) :
    (SetAGCCompression chipBus a r).1.i2c
        = ⟨fun k => if k = 0x7 then (a.i2c.regs 0x7 &&& 0xFC) ||| r else a.i2c.regs k, 0x7⟩
    ∧ (SetAGCCompression chipBus a r).2 = none := by
  have hnr : ¬ r > 3 := Nat.not_lt.mpr hr
  have hbits := ratio_bits (a.i2c.regs 0x7) hb r (Nat.lt_succ_of_le hr)
  have hrb := readByte_delivered chipBus a 0x7 ⟨a.i2c.regs, 0x7⟩ ⟨a.i2c.regs, 0x7⟩
    (a.i2c.regs 0x7) [] none rfl rfl
  simp only [SetAGCCompression, hnr, if_false, regAGC, hrb, writeByte_eq, hbits.1]
  exact ⟨rfl, rfl⟩

/-- `SetAGCMaxGain` on the register-file bus: the chip afterwards. -/
theorem SetAGCMaxGain_chip (a : Amp Chip) (g : Int) (hlo : 18 ≤ g) (hhi : g ≤ 30)
    (hb : a.i2c.regs 0x7 < 256) :
    (SetAGCMaxGain chipBus a g).1.i2c
        = ⟨fun k => if k = 0x7 then (a.i2c.regs 0x7 &&& 0x0F) ||| ((g - 18).toNat <<< 4)
            else a.i2c.regs k, 0x7⟩
    ∧ (SetAGCMaxGain chipBus a g).2 = none := by
  have hng : ¬ (g < 18 ∨ g > 30) := by omega
  have hk := toByte_maxGain g hlo hhi
  have hbits := maxGain_bits (a.i2c.regs 0x7) hb (g - 18).toNat hk.2
  have hrb := readByte_delivered chipBus a 0x7 ⟨a.i2c.regs, 0x7⟩ ⟨a.i2c.regs, 0x7⟩
    (a.i2c.regs 0x7) [] none rfl rfl
  simp only [SetAGCMaxGain, hng, if_false, regAGC, hrb, writeByte_eq, hk.1, hbits.1]
  exact ⟨rfl, rfl⟩

/-- C16: on the register-file bus, for every prior byte `b` of register `0x7`,
every ratio `r` in 0..3 and every gain `g` in 18..30, running `SetAGCCompression r`
and `SetAGCMaxGain g` in either order succeeds and leaves register `0x7` equal to
`(b AND 0x0C) OR r OR ((g-18) << 4)`: the two runs end with the same chip, every
other register keeps its value, and bits 2-3 of register `0x7` are those of `b`
after either setter alone and after both. -/
theorem AGC_setters_commute (a : Amp Chip) (r : AGCRatio) (g : Int)
    (hr : r ≤ 3) (hlo : 18 ≤ g) (hhi : g ≤ 30) (hb : a.i2c.regs 0x7 < 256) :
    (SetAGCMaxGain chipBus (SetAGCCompression chipBus a r).1 g).1.i2c.regs 0x7
        = ((a.i2c.regs 0x7 &&& 0x0C) ||| r ||| ((g - 18).toNat <<< 4))
    ∧ (SetAGCCompression chipBus (SetAGCMaxGain chipBus a g).1 r).1.i2c.regs 0x7
        = ((a.i2c.regs 0x7 &&& 0x0C) ||| r ||| ((g - 18).toNat <<< 4))
    ∧ (SetAGCMaxGain chipBus (SetAGCCompression chipBus a r).1 g).1.i2c
        = (SetAGCCompression chipBus (SetAGCMaxGain chipBus a g).1 r).1.i2c
    ∧ (SetAGCMaxGain chipBus (SetAGCCompression chipBus a r).1 g).2 = none
    ∧ (SetAGCCompression chipBus (SetAGCMaxGain chipBus a g).1 r).2 = none
    ∧ (∀ k, k ≠ 0x7 →
        (SetAGCMaxGain chipBus (SetAGCCompression chipBus a r).1 g).1.i2c.regs k
          = a.i2c.regs k)
    ∧ (SetAGCCompression chipBus a r).1.i2c.regs 0x7 &&& 0x0C = a.i2c.regs 0x7 &&& 0x0C
    ∧ (SetAGCMaxGain chipBus a g).1.i2c.regs 0x7 &&& 0x0C = a.i2c.regs 0x7 &&& 0x0C
    ∧ (SetAGCMaxGain chipBus (SetAGCCompression chipBus a r).1 g).1.i2c.regs 0x7 &&& 0x0C
        = a.i2c.regs 0x7 &&& 0x0C := by
  have hk := toByte_maxGain g hlo hhi
  have hbits := agc_fields_bits (a.i2c.regs 0x7) hb r (Nat.lt_succ_of_le hr) (g - 18).toNat hk.2
  have hrb := ratio_bits (a.i2c.regs 0x7) hb r (Nat.lt_succ_of_le hr)
  have hgb := maxGain_bits (a.i2c.regs 0x7) hb (g - 18).toNat hk.2
  have c1 := SetAGCCompression_chip a r hr hb
  have g1 := SetAGCMaxGain_chip a g hlo hhi hb
  have hb1 : (SetAGCCompression chipBus a r).1.i2c.regs 0x7 < 256 := by
    rw [c1.1]
    simpa using hrb.2.1
  have hb2 : (SetAGCMaxGain chipBus a g).1.i2c.regs 0x7 < 256 := by
    rw [g1.1]
    simpa using hgb.2.1
  have g2 := SetAGCMaxGain_chip (SetAGCCompression chipBus a r).1 g hlo hhi hb1
  have c2 := SetAGCCompression_chip (SetAGCMaxGain chipBus a g).1 r hr hb2
  have e1 : (SetAGCMaxGain chipBus (SetAGCCompression chipBus a r).1 g).1.i2c
      = ⟨fun k => if k = 0x7 then (a.i2c.regs 0x7 &&& 0x0C) ||| r ||| ((g - 18).toNat <<< 4)
          else a.i2c.regs k, 0x7⟩ := by
    rw [g2.1, c1.1]
    simp only [if_true, hbits.1]
    congr 1
    funext k
    by_cases hk7 : k = 0x7 <;> simp [hk7]
  have e2 : (SetAGCCompression chipBus (SetAGCMaxGain chipBus a g).1 r).1.i2c
      = ⟨fun k => if k = 0x7 then (a.i2c.regs 0x7 &&& 0x0C) ||| r ||| ((g - 18).toNat <<< 4)
          else a.i2c.regs k, 0x7⟩ := by
    rw [c2.1, g1.1]
    simp only [if_true, hbits.2.1]
    congr 1
    funext k
    by_cases hk7 : k = 0x7 <;> simp [hk7]
  refine ⟨?_, ?_, ?_, g2.2, c2.2, ?_, ?_, ?_, ?_⟩
  · rw [e1]; simp
  · rw [e2]; simp
  · rw [e1, e2]
  · intro k hk7
    rw [e1]
    simp [hk7]
  · rw [c1.1]
    simpa using hbits.2.2.1
  · rw [g1.1]
    simpa using hbits.2.2.2.1
  · rw [e1]
    simpa using hbits.2.2.2.2

/-- Witness for C16: ratio 2 and 24 dB on a chip whose registers hold `0xFF`. -/
theorem AGC_setters_commute_witness :
    (SetAGCMaxGain chipBus (SetAGCCompression chipBus ⟨chipWith 0xFF, fun _ => 0⟩ 2).1
        24).1.i2c.regs 0x7 = 0x6E
    ∧ (SetAGCCompression chipBus (SetAGCMaxGain chipBus ⟨chipWith 0xFF, fun _ => 0⟩ 24).1
        2).1.i2c.regs 0x7 = 0x6E :=
  ⟨(AGC_setters_commute ⟨chipWith 0xFF, fun _ => 0⟩ 2 24 (by decide) (by decide) (by decide)
      (by decide)).1,
   (AGC_setters_commute ⟨chipWith 0xFF, fun _ => 0⟩ 2 24 (by decide) (by decide) (by decide)
      (by decide)).2.1⟩

/-! ## Use of the scratch array -/

theorem traced_Read_log {σ : Type} (T : I2C σ) (x : σ × List BusOp) (p : List Nat) :
    ((traced T).Read x p).1.2 = x.2 ++ [BusOp.read p.length] :=
  rfl

theorem Staged_refl {σ : Type} (a : Amp (σ × List BusOp)) : Staged a a :=
  ⟨⟨[], by simp, by simp⟩, fun _ _ => rfl⟩

theorem Staged_trans {σ : Type} {a b c : Amp (σ × List BusOp)}
    (h1 : Staged a b) (h2 : Staged b c) : Staged a c := by
  obtain ⟨⟨ops1, e1, s1⟩, f1⟩ := h1
  obtain ⟨⟨ops2, e2, s2⟩, f2⟩ := h2
  refine ⟨⟨ops1 ++ ops2, ?_, ?_⟩, ?_⟩
  · rw [e2, e1, List.append_assoc]
  · intro op hop
    rcases List.mem_append.mp hop with h | h
    · exact s1 op h
    · exact s2 op h
  · intro j hj
    rw [f2 j hj, f1 j hj]

theorem setBuf_other (buf : Fin 8 → Nat) (i j : Fin 8) (v : Nat) (h : j ≠ i) :
    setBuf buf i v j = buf j := by
  simp [setBuf, h]

theorem writeByte_staged {σ : Type} (T : I2C σ) (a : Amp (σ × List BusOp))
    (register value : Nat) : Staged a (writeByte (traced T) a register value).1 := by
  rw [writeByte_eq]
  refine ⟨⟨[BusOp.write [register, value]], traced_Write_log T a.i2c _, ?_⟩, ?_⟩
  · intro op hop
    rw [List.mem_singleton.mp hop]
    rfl
  · intro j hj
    have h0 : j ≠ 0 := by
      intro h
      rw [h] at hj
      simp at hj
    have h1 : j ≠ 1 := by
      intro h
      rw [h] at hj
      simp at hj
    show setBuf (setBuf a.buf 0 register) 1 value j = a.buf j
    rw [setBuf_other _ _ _ _ h1, setBuf_other _ _ _ _ h0]

theorem readByte_staged {σ : Type} (T : I2C σ) (a : Amp (σ × List BusOp))
    (register : Nat) : Staged a (readByte (traced T) a register).1 := by
  have hbuf : ∀ (d : List Nat) (j : Fin 8), 2 ≤ j.val →
      storeInto (setBuf a.buf 0 register) 1 d j = a.buf j := by
    intro d j hj
    have h0 : j ≠ 0 := by
      intro h
      rw [h] at hj
      simp at hj
    have h1 : ¬ j.val < 1 := by omega
    simp only [storeInto, h1, if_false]
    exact setBuf_other _ _ _ _ h0
  unfold readByte
  simp only [slice_one, setBuf_same]
  split
  · refine ⟨⟨[BusOp.write [register]], traced_Write_log T a.i2c _, ?_⟩, ?_⟩
    · intro op hop
      rw [List.mem_singleton.mp hop]
      rfl
    · intro j hj
      have h := hbuf [] j hj
      rw [storeInto_nil] at h
      exact h
  · refine ⟨⟨[BusOp.write [register], BusOp.read 1], ?_, ?_⟩, ?_⟩
    · simp only [traced_Read_log, traced_Write_log, List.append_assoc, List.singleton_append,
        List.length_singleton]
    · intro op hop
      simp only [List.mem_cons, List.mem_singleton, List.not_mem_nil, or_false] at hop
      rcases hop with h | h <;> rw [h] <;> rfl
    · intro j hj
      exact hbuf _ j hj

/-- The shape shared by the read-modify-write accessors keeps the staging
discipline. -/
theorem rmw_staged {σ : Type} (T : I2C σ) (a : Amp (σ × List BusOp)) (reg : Nat)
    (f : Nat → Nat) :
    Staged a
      (match (readByte (traced T) a reg).2.2 with
        | some err => ((readByte (traced T) a reg).1, some err)
        | none =>
          writeByte (traced T) (readByte (traced T) a reg).1 reg
            (f (readByte (traced T) a reg).2.1)).1 := by
  split
  · exact readByte_staged T a reg
  · exact Staged_trans (readByte_staged T a reg) (writeByte_staged T _ reg _)

/-- C17, as the code has it: the scratch array has eight positions, of which the
driver uses the first two.  For every operation and every transport, failing or
not, the bus transfers it issues are one-byte writes, one-byte reads and two-byte
writes only, and positions 2..7 of the array keep their contents; a register
write stages `[address, value]` in positions 0 and 1 and sends them as a single
two-byte bus write. -/
theorem scratch_usage {σ : Type} (T : I2C σ) (a : Amp (σ × List BusOp)) (g : Int)
    (right left : Bool) (r : AGCRatio) (reg v : Nat) :
    Staged a (Gain (traced T) a).1
    ∧ Staged a (SetGain (traced T) a g).1
    ∧ Staged a (EnableChannel (traced T) a right left).1
    ∧ Staged a (Faults (traced T) a).1
    ∧ Staged a (SetAGCCompression (traced T) a r).1
    ∧ Staged a (SetAGCMaxGain (traced T) a g).1
    ∧ Staged a (readByte (traced T) a reg).1
    ∧ Staged a (writeByte (traced T) a reg v).1
    ∧ (writeByte (traced T) a reg v).1.buf 0 = reg
    ∧ (writeByte (traced T) a reg v).1.buf 1 = v
    ∧ (writeByte (traced T) a reg v).1.i2c.2 = a.i2c.2 ++ [BusOp.write [reg, v]] := by
  refine ⟨readByte_staged T a regGain, writeByte_staged T a regGain _, ?_,
    readByte_staged T a setup, ?_, ?_, readByte_staged T a reg, writeByte_staged T a reg v,
    ?_, ?_, ?_⟩
  · exact rmw_staged T a setup
      (fun sb =>
        if left then
          (if right then sb ||| setupREnabled else andNot sb setupREnabled) ||| setupLEnabled
        else andNot (if right then sb ||| setupREnabled else andNot sb setupREnabled)
          setupLEnabled)
  · unfold SetAGCCompression
    split
    · exact Staged_refl a
    · exact rmw_staged T a regAGC (fun b => andNot b 3 ||| r)
  · unfold SetAGCMaxGain
    split
    · exact Staged_refl a
    · exact rmw_staged T a regAGC (fun b => andNot b 0xf0 ||| shlByte (toByte (g - 18)) 4)
  · rw [writeByte_eq]
    show setBuf (setBuf a.buf 0 reg) 1 v 0 = reg
    simp [setBuf]
  · rw [writeByte_eq]
    show setBuf (setBuf a.buf 0 reg) 1 v 1 = v
    simp [setBuf]
  · rw [writeByte_eq]
    exact traced_Write_log T a.i2c _

/-- C17 as stated fails: the scratch array is eight bytes long, not at most two.
After `SetGain 45` on an array that held `0xA0..0xA7`, the whole array is
`[0x05, 0x1E, 0xA2, 0xA3, 0xA4, 0xA5, 0xA6, 0xA7]`: eight bytes, the last six
still those it held before. -/
theorem scratch_array_has_eight_bytes :
    slice (SetGain chipBus ⟨chipWith 0, fun j => 0xA0 + j.val⟩ 45).1.buf 8
        = [0x05, 0x1E, 0xA2, 0xA3, 0xA4, 0xA5, 0xA6, 0xA7]
    ∧ (slice (SetGain chipBus ⟨chipWith 0, fun j => 0xA0 + j.val⟩ 45).1.buf 8).length = 8
    ∧ ¬ (slice (SetGain chipBus ⟨chipWith 0, fun j => 0xA0 + j.val⟩ 45).1.buf 8).length ≤ 2 := by
  decide

end Tpa2016
